import Mathlib

/-!
Verification of the TipTap transliteration extension
(src/extension.ts of the tanglish-tiptap repository).

The file embeds the plugin's pure logic in Lean:

* the external engine (`TransliterationEngine`) is an opaque record of the
  three functions the plugin calls (`transliterate`, `getSuggestions`,
  `containsTargetScript`);
* a document / paragraph is a `String`, offsets count characters, and a
  ProseMirror transaction of the shape
  `tr.delete(a, b).insertText(s, a)` is the `Mutation` record
  `{start := a, stop := b, insert := s}` interpreted by `applyMutation`;
* the regex `(\S+)$` used to find the word before the caret is
  `extractWord`, with JavaScript's `\s` character class embedded as
  `jsWhitespace`;
* each ProseMirror handler / editor command becomes a pure function from
  its inputs (storage flags, option values, the relevant slice of the
  document) to a result record listing the returned boolean, the
  dispatched mutation, if any, and the `onSuggestionsUpdate` invocation,
  if any.
-/

/-- JavaScript's whitespace class `\s`: the characters the regex
`(\S+)$` in the extension treats as word boundaries. -/
def jsWhitespace (c : Char) : Bool :=
  c = ' ' || c = '\t' || c = '\n' || c = '\x0b' || c = '\x0c' || c = '\r' ||
  c = ' ' || c = ' ' ||
  (' ' ≤ c && c ≤ ' ') ||
  c = ' ' || c = ' ' || c = ' ' || c = ' ' ||
  c = '　' || c = '﻿'

/-- The first `o` characters of `s`: the JavaScript substring
`s[0:o]`, and the embedding of
`resolvedPos.parent.textBetween(0, resolvedPos.parentOffset, undefined, '￼')`
when `s` is the parent's text (with leaf nodes already rendered as
U+FFFC) and `o` the parent offset of the caret. -/
def takeChars (s : String) (o : Nat) : String :=
  String.mk (s.data.take o)

/-- The embedding of `textBefore.match(/(\S+)$/)`: the longest suffix of
`textBefore` made of non-`\s` characters, or `none` when that suffix is
empty. -/
def extractWord (textBefore : String) : Option String :=
  let rtw := textBefore.data.reverse.takeWhile (fun c => !jsWhitespace c)
  if rtw.isEmpty then none else some (String.mk rtw.reverse)

/-- A suggestion as returned by the engine: the `{input, output}` record. -/
structure Suggestion where
  input : String
  output : String
deriving DecidableEq, Repr

/-- A suggestion as handed to `onSuggestionsUpdate`: the engine's record
plus the backward-compatibility aliases. -/
structure TanglishSuggestion where
  input : String
  output : String
  tanglish : String
  tamil : String
deriving DecidableEq, Repr

/-- The mapping `(s: Suggestion) => ({...s, tanglish: s.input, tamil: s.output})`
applied to each raw suggestion before notifying the callback. -/
def toTanglish (s : Suggestion) : TanglishSuggestion :=
  { input := s.input, output := s.output, tanglish := s.input, tamil := s.output }

/-- The external transliteration engine, kept opaque: exactly the three
functions of its contract that the extension calls. -/
structure TransliterationEngine where
  transliterate : String → String
  getSuggestions : String → Nat → List Suggestion
  containsTargetScript : String → Bool

/-- Screen coordinates of the caret, as returned by `view.coordsAtPos`. -/
structure Coords where
  bottom : Int
  left : Int
deriving DecidableEq, Repr

/-- The anchor position passed to `onSuggestionsUpdate`. -/
structure Anchor where
  top : Int
  left : Int
deriving DecidableEq, Repr

/-- One invocation of the `onSuggestionsUpdate` callback: the suggestion
list and the anchor (`none` embeds JavaScript's `null`). -/
structure CallbackCall where
  suggestions : List TanglishSuggestion
  anchor : Option Anchor
deriving DecidableEq, Repr

/-- A ProseMirror transaction of the shape used by the extension:
`tr.delete(start, stop).insertText(insert, start)`, i.e. replace the
character range `[start, stop)` with `insert`. -/
structure Mutation where
  start : Nat
  stop : Nat
  insert : String
deriving DecidableEq, Repr

/-- Replay a `Mutation` on a document. -/
def applyMutation (doc : String) (m : Mutation) : String :=
  String.mk (doc.data.take m.start ++ m.insert.data ++ doc.data.drop m.stop)

/-- The observable outcome of one handler call: the boolean it returns,
the transaction it dispatched (if any), and the callback invocation it
made (if any). -/
structure HandlerResult where
  handled : Bool
  mutation : Option Mutation
  callback : Option CallbackCall
deriving DecidableEq, Repr

/-- The plugin storage the commands read and write (`storage.enabled`;
the engine handle is passed separately where needed). -/
structure Storage where
  enabled : Bool
deriving DecidableEq, Repr

/-- The observable outcome of one editor command: the updated storage,
the returned boolean, and the callback invocation it made (if any). -/
structure CommandOut where
  storage : Storage
  ret : Bool
  callback : Option CallbackCall
deriving DecidableEq, Repr

/-- Embedding of the `setTransliteration` command: store the flag
unconditionally, fire `onSuggestionsUpdate([], null)` when the argument
is `false` and a callback is configured, and return `true`. -/
def setTransliteration (enabled : Bool) (hasCallback : Bool) (st : Storage) :
    CommandOut :=
  { storage := { st with enabled := enabled }
    ret := true
    callback := if !enabled && hasCallback then some ⟨[], none⟩ else none }

/-- Embedding of the `toggleTransliteration` command:
`commands.setTransliteration(!this.storage.enabled)`. -/
def toggleTransliteration (hasCallback : Bool) (st : Storage) : CommandOut :=
  setTransliteration (!st.enabled) hasCallback st

/-- Embedding of `state.doc.textBetween(from, to)` on a string document. -/
def textBetween (doc : String) (i j : Nat) : String :=
  String.mk ((doc.data.drop i).take (j - i))

/-- Embedding of the `transliterateSelection` command. `i`, `j` are the
selection bounds `from`, `to`; the command never touches the suggestion
callback, hence `callback := none` on every path. -/
def transliterateSelection (engine : Option TransliterationEngine)
    (doc : String) (i j : Nat) : HandlerResult :=
  match engine with
  | none => ⟨false, none, none⟩
  | some eng =>
    if i = j then ⟨false, none, none⟩
    else
      let selectedText := textBetween doc i j
      let transliterated := eng.transliterate selectedText
      if transliterated = selectedText then ⟨false, none, none⟩
      else ⟨true, some ⟨i, j, transliterated⟩, none⟩

/-- Embedding of the plugin's `handleTextInput` prop. `textBefore` is the
parent text before position `frm` (leaf nodes rendered as U+FFFC) and
`text` the inserted string. -/
def handleTextInput (enabled : Bool) (engine : Option TransliterationEngine)
    (triggerChars : List String) (hasCallback : Bool)
    (textBefore : String) (frm : Nat) (text : String) : HandlerResult :=
  match enabled, engine with
  | true, some eng =>
    if triggerChars.contains text then
      match extractWord textBefore with
      | none => ⟨false, none, none⟩
      | some word =>
        if eng.containsTargetScript word then ⟨false, none, none⟩
        else
          let transliterated := eng.transliterate word
          if transliterated = word then ⟨false, none, none⟩
          else
            { handled := true
              mutation := some ⟨frm - word.length, frm, transliterated ++ text⟩
              callback := if hasCallback then some ⟨[], none⟩ else none }
    else ⟨false, none, none⟩
  | _, _ => ⟨false, none, none⟩

/-- Embedding of the plugin's `handleKeyDown` prop for a key press
`key`; the handler returns `false` on every path. -/
def handleKeyDown (enabled : Bool) (engine : Option TransliterationEngine)
    (minCharsForSuggestion : Nat) (hasCallback : Bool)
    (key : String) (textBefore : String) (frm : Nat) : HandlerResult :=
  match enabled, engine with
  | true, some eng =>
    if key = "Enter" then
      match extractWord textBefore with
      | none => ⟨false, none, none⟩
      | some word =>
        let suggestions := eng.getSuggestions word 1
        if 0 < suggestions.length ∧ minCharsForSuggestion ≤ word.length then
          ⟨false, none, none⟩
        else if eng.containsTargetScript word then ⟨false, none, none⟩
        else
          let transliterated := eng.transliterate word
          if transliterated = word then ⟨false, none, none⟩
          else
            { handled := false
              mutation := some ⟨frm - word.length, frm, transliterated⟩
              callback := if hasCallback then some ⟨[], none⟩ else none }
    else ⟨false, none, none⟩
  | _, _ => ⟨false, none, none⟩

/-- Embedding of the plugin view's `update` function: the value is the
`onSuggestionsUpdate` invocation it performs (`none` = the callback is
not invoked at all). `coords` is `view.coordsAtPos(from)`. -/
def update (enabled : Bool) (engine : Option TransliterationEngine)
    (hasCallback : Bool) (minCharsForSuggestion maxSuggestions : Nat)
    (textBefore : String) (coords : Coords) : Option CallbackCall :=
  match enabled, engine, hasCallback with
  | true, some eng, true =>
    match extractWord textBefore with
    | none => some ⟨[], none⟩
    | some word =>
      if word.length < minCharsForSuggestion then some ⟨[], none⟩
      else if eng.containsTargetScript word then some ⟨[], none⟩
      else
        let suggestions := (eng.getSuggestions word maxSuggestions).map toTanglish
        if suggestions.isEmpty then some ⟨[], none⟩
        else some ⟨suggestions, some ⟨coords.bottom + 4, coords.left⟩⟩
  | _, _, _ => none

/-- A miniature engine used to evaluate the theorems on concrete inputs,
with the behaviour the spec's scenarios assume
(`transliterate("vanakkam") == "வணக்கம்"`, suggestions for `"van"`,
Tamil-block script detection). -/
def demoEngine : TransliterationEngine where
  transliterate s :=
    if s = "vanakkam" then "வணக்கம்"
    else if s = "nandri" then "நன்றி"
    else s
  getSuggestions q limit :=
    if q = "van" then
      [⟨"vanakkam", "வணக்கம்"⟩, ⟨"vandhanam", "வந்தனம்"⟩].take limit
    else []
  containsTargetScript s :=
    s.data.any fun c => 0xb80 ≤ c.toNat && c.toNat ≤ 0xbff

/-- Claim C7: setTransliteration(b) stores b unconditionally, and a
disabling call with a callback configured immediately notifies it with
an empty list and a null anchor. -/
theorem setTransliteration_sets_and_clears (b hc : Bool) (st : Storage) :
    (setTransliteration b hc st).storage.enabled = b ∧
    (b = false → hc = true →
      (setTransliteration b hc st).callback = some ⟨[], none⟩) := by
  refine ⟨rfl, ?_⟩
  rintro rfl rfl
  rfl

theorem setTransliteration_sets_and_clears_witness :
    (setTransliteration false true ⟨true⟩).storage.enabled = false ∧
    (setTransliteration false true ⟨true⟩).callback = some ⟨[], none⟩ := by
  have h := setTransliteration_sets_and_clears false true ⟨true⟩
  exact ⟨h.1, h.2 rfl rfl⟩

/-- Claim C9: toggleTransliteration equals setTransliteration applied to
the negated stored flag, and two consecutive toggles restore the
original enabled state. -/
theorem toggleTransliteration_involutive (hc : Bool) (st : Storage) :
    toggleTransliteration hc st = setTransliteration (!st.enabled) hc st ∧
    (toggleTransliteration hc
        (toggleTransliteration hc st).storage).storage.enabled =
      st.enabled := by
  refine ⟨rfl, ?_⟩
  rcases st with ⟨e⟩
  cases e <;> rfl

/-- Claim C10: the clearing notification of setTransliteration is keyed
on the argument being false, not on a transition — it fires for every
disabling call with a callback, whatever the prior stored state — and
both commands always return true. -/
theorem setTransliteration_unconditional (b hc : Bool) (st : Storage) :
    (setTransliteration false true st).callback = some ⟨[], none⟩ ∧
    (setTransliteration b hc st).ret = true ∧
    (toggleTransliteration hc st).ret = true := by
  exact ⟨rfl, rfl, rfl⟩

/-- Claim C8: handleTextInput returns false, dispatches nothing and
invokes no callback when the toggle is off, no engine is attached, the
inserted text is not a trigger character, no word precedes the caret,
the word already contains target script, or transliteration is the
identity on the word. -/
theorem handleTextInput_noops (triggers : List String) (hc : Bool)
    (tb : String) (frm : Nat) (text : String) :
    (∀ engine, handleTextInput false engine triggers hc tb frm text =
      ⟨false, none, none⟩) ∧
    (∀ enabled, handleTextInput enabled none triggers hc tb frm text =
      ⟨false, none, none⟩) ∧
    (∀ eng, triggers.contains text = false →
      handleTextInput true (some eng) triggers hc tb frm text =
        ⟨false, none, none⟩) ∧
    (∀ eng, extractWord tb = none →
      handleTextInput true (some eng) triggers hc tb frm text =
        ⟨false, none, none⟩) ∧
    (∀ eng w, extractWord tb = some w → eng.containsTargetScript w = true →
      handleTextInput true (some eng) triggers hc tb frm text =
        ⟨false, none, none⟩) ∧
    (∀ eng w, extractWord tb = some w → eng.transliterate w = w →
      handleTextInput true (some eng) triggers hc tb frm text =
        ⟨false, none, none⟩) := by
  refine ⟨?_, ?_, ?_, ?_, ?_, ?_⟩
  · intro engine; cases engine <;> rfl
  · intro enabled; cases enabled <;> rfl
  · intro eng h
    have h' : ¬ text ∈ triggers := by simpa using h
    simp [handleTextInput, h']
  · intro eng h; simp [handleTextInput, h]
  · intro eng w hw hs; simp [handleTextInput, hw, hs]
  · intro eng w hw ht
    by_cases hs : eng.containsTargetScript w = true
    · simp [handleTextInput, hw, hs]
    · simp [handleTextInput, hw, hs, ht]

theorem handleTextInput_noops_witness :
    handleTextInput true (some demoEngine) [" ", "Enter"] true "vanakkam" 8
        "x" = ⟨false, none, none⟩ :=
  (handleTextInput_noops [" ", "Enter"] true "vanakkam" 8 "x").2.2.1
    demoEngine (by decide)

/-- Claim C6: transliterateSelection fails without touching the document
when the selection is empty, no engine is attached, or transliteration
fixes the selected text; otherwise it replaces the selection with the
transliterated text in one transaction and returns true; it never
invokes the suggestion callback. -/
theorem transliterateSelection_contract (doc : String) (i j : Nat) :
    transliterateSelection none doc i j = ⟨false, none, none⟩ ∧
    (∀ engine, i = j →
      transliterateSelection engine doc i j = ⟨false, none, none⟩) ∧
    (∀ eng, eng.transliterate (textBetween doc i j) = textBetween doc i j →
      transliterateSelection (some eng) doc i j = ⟨false, none, none⟩) ∧
    (∀ eng, i ≠ j →
      eng.transliterate (textBetween doc i j) ≠ textBetween doc i j →
      transliterateSelection (some eng) doc i j =
        ⟨true, some ⟨i, j, eng.transliterate (textBetween doc i j)⟩, none⟩) ∧
    (∀ engine, (transliterateSelection engine doc i j).callback = none) := by
  refine ⟨rfl, ?_, ?_, ?_, ?_⟩
  · rintro engine rfl; cases engine <;> simp [transliterateSelection]
  · intro eng h
    by_cases hij : i = j
    · simp [transliterateSelection, hij]
    · simp [transliterateSelection, hij, h]
  · intro eng hij h; simp [transliterateSelection, hij, h]
  · intro engine
    cases engine with
    | none => rfl
    | some eng =>
      by_cases hij : i = j
      · simp [transliterateSelection, hij]
      · by_cases h : eng.transliterate (textBetween doc i j) = textBetween doc i j
        · simp [transliterateSelection, hij, h]
        · simp [transliterateSelection, hij, h]

theorem transliterateSelection_contract_witness :
    transliterateSelection (some demoEngine) "thanks" 2 2 =
      ⟨false, none, none⟩ :=
  (transliterateSelection_contract "thanks" 2 2).2.1 (some demoEngine) rfl

/-- Claim C1: with the toggle on, an engine attached and a callback
configured, a trigger character typed after a transliterable word makes
handleTextInput replace the word range with the transliterated text
followed by the trigger character in one transaction, return true (so
the default insertion is suppressed), and notify the callback with an
empty list and a null anchor; replaying the transaction yields the
document with the word replaced and exactly the one appended trigger
character between the transliterated word and the old suffix. -/
theorem handleTextInput_trigger_commits (T : String) (o : Nat) (text : String)
    (triggers : List String) (eng : TransliterationEngine) (word : String)
    (_ho : o ≤ T.length)
    (_hone : text.length = 1)
    (htrig : triggers.contains text = true)
    (hword : extractWord (takeChars T o) = some word)
    (hscript : eng.containsTargetScript word = false)
    (hdiff : eng.transliterate word ≠ word) :
    handleTextInput true (some eng) triggers true (takeChars T o) o text =
      ⟨true, some ⟨o - word.length, o, eng.transliterate word ++ text⟩,
        some ⟨[], none⟩⟩ ∧
    applyMutation T ⟨o - word.length, o, eng.transliterate word ++ text⟩ =
      String.mk (T.data.take (o - word.length) ++
        (eng.transliterate word).data ++ (text.data ++ T.data.drop o)) := by
  constructor
  · have htrig' : text ∈ triggers := by simpa using htrig
    simp [handleTextInput, htrig', hword, hscript, hdiff]
  · simp [applyMutation, String.data_append, List.append_assoc]

theorem handleTextInput_trigger_commits_witness :
    handleTextInput true (some demoEngine) [" ", "Enter"] true
        (takeChars "vanakkam" 8) 8 " " =
      ⟨true, some ⟨0, 8, "வணக்கம் "⟩, some ⟨[], none⟩⟩ ∧
    applyMutation "vanakkam" ⟨0, 8, "வணக்கம் "⟩ = "வணக்கம் " ∧
    ("வணக்கம் ").data.count ' ' = 1 := by
  have h := handleTextInput_trigger_commits "vanakkam" 8 " " [" ", "Enter"]
    demoEngine "vanakkam" (by decide) (by decide) (by decide) (by decide)
    (by decide) (by decide)
  refine ⟨Eq.trans h.1 ?_, by decide, by decide⟩
  decide

/-- Claim C2: on Enter with the toggle on and an engine attached, a word
with at least one suggestion (limit 1) of length at least
minCharsForSuggestion is left untouched; otherwise a target-script-free
word whose transliteration differs is replaced in place, with no
trigger character appended; and the handler returns false on every
path, so Enter's default line break always runs. -/
theorem handleKeyDown_enter_policy (minChars : Nat) (hc : Bool)
    (tb : String) (frm : Nat) (eng : TransliterationEngine) :
    (∀ enabled engine key,
      (handleKeyDown enabled engine minChars hc key tb frm).handled = false) ∧
    (∀ w, extractWord tb = some w →
      (eng.getSuggestions w 1 ≠ [] → minChars ≤ w.length →
        handleKeyDown true (some eng) minChars hc "Enter" tb frm =
          ⟨false, none, none⟩) ∧
      ((eng.getSuggestions w 1 = [] ∨ w.length < minChars) →
        eng.containsTargetScript w = false →
        eng.transliterate w ≠ w →
        handleKeyDown true (some eng) minChars hc "Enter" tb frm =
          ⟨false, some ⟨frm - w.length, frm, eng.transliterate w⟩,
            if hc then some ⟨[], none⟩ else none⟩)) := by
  constructor
  · intro enabled engine key
    cases enabled with
    | false => cases engine <;> rfl
    | true =>
      cases engine with
      | none => rfl
      | some e =>
        simp only [handleKeyDown]
        repeat' split
        all_goals rfl
  · intro w hw
    constructor
    · intro hsugg hmin
      have hcond : 0 < (eng.getSuggestions w 1).length ∧ minChars ≤ w.length :=
        ⟨List.length_pos.mpr hsugg, hmin⟩
      simp [handleKeyDown, hw, hcond.1, hcond.2]
    · intro hor hscript hdiff
      have hcond : ¬ (0 < (eng.getSuggestions w 1).length ∧
          minChars ≤ w.length) := by
        rcases hor with h | h
        · simp [h]
        · exact fun hp => absurd hp.2 (Nat.not_le.mpr h)
      simp [handleKeyDown, hw, hcond, hscript, hdiff]

theorem handleKeyDown_enter_policy_witness :
    handleKeyDown true (some demoEngine) 2 true "Enter" "van" 3 =
      ⟨false, none, none⟩ ∧
    handleKeyDown true (some demoEngine) 2 true "Enter" "nandri" 6 =
      ⟨false, some ⟨0, 6, "நன்றி"⟩, some ⟨[], none⟩⟩ := by
  have hv := handleKeyDown_enter_policy 2 true "van" 3 demoEngine
  have hn := handleKeyDown_enter_policy 2 true "nandri" 6 demoEngine
  constructor
  · exact (hv.2 "van" (by decide)).1 (by decide) (by decide)
  · refine Eq.trans ((hn.2 "nandri" (by decide)).2 (Or.inl (by decide))
      (by decide) (by decide)) ?_
    decide

/-- Claim C3: with the toggle on, an engine attached and a callback
configured, the view update notifies the callback with an empty list
and a null anchor when there is no current word, the word is shorter
than minCharsForSuggestion, it contains target script, or it yields no
suggestions; otherwise it notifies with the mapped suggestion list —
every entry satisfying tanglish = input and tamil = output — anchored
at (top = caret bottom + 4, left = caret left). -/
theorem update_notifies (minChars maxS : Nat) (tb : String)
    (coords : Coords) (eng : TransliterationEngine) :
    (extractWord tb = none →
      update true (some eng) true minChars maxS tb coords =
        some ⟨[], none⟩) ∧
    (∀ w, extractWord tb = some w → w.length < minChars →
      update true (some eng) true minChars maxS tb coords =
        some ⟨[], none⟩) ∧
    (∀ w, extractWord tb = some w → eng.containsTargetScript w = true →
      update true (some eng) true minChars maxS tb coords =
        some ⟨[], none⟩) ∧
    (∀ w, extractWord tb = some w → eng.getSuggestions w maxS = [] →
      update true (some eng) true minChars maxS tb coords =
        some ⟨[], none⟩) ∧
    (∀ w, extractWord tb = some w → minChars ≤ w.length →
      eng.containsTargetScript w = false →
      eng.getSuggestions w maxS ≠ [] →
      update true (some eng) true minChars maxS tb coords =
        some ⟨(eng.getSuggestions w maxS).map toTanglish,
          some ⟨coords.bottom + 4, coords.left⟩⟩ ∧
      ∀ t ∈ (eng.getSuggestions w maxS).map toTanglish,
        t.tanglish = t.input ∧ t.tamil = t.output) := by
  refine ⟨?_, ?_, ?_, ?_, ?_⟩
  · intro h; simp [update, h]
  · intro w hw hlt; simp [update, hw, hlt]
  · intro w hw hs
    rcases Nat.lt_or_ge w.length minChars with h | h
    · simp [update, hw, h]
    · simp [update, hw, Nat.not_lt.mpr h, hs]
  · intro w hw hsugg
    rcases Nat.lt_or_ge w.length minChars with h | h
    · simp [update, hw, h]
    · by_cases hs : eng.containsTargetScript w = true
      · simp [update, hw, Nat.not_lt.mpr h, hs]
      · simp [update, hw, Nat.not_lt.mpr h, hs, hsugg]
  · intro w hw hmin hs hne
    constructor
    · rcases hr : eng.getSuggestions w maxS with _ | ⟨a, rest⟩
      · exact absurd hr hne
      · simp [update, hw, Nat.not_lt.mpr hmin, hs, hr]
    · intro t ht
      rcases List.mem_map.mp ht with ⟨s, _, rfl⟩
      exact ⟨rfl, rfl⟩

theorem update_notifies_witness :
    update true (some demoEngine) true 2 5 "van" ⟨100, 20⟩ =
      some ⟨[⟨"vanakkam", "வணக்கம்", "vanakkam", "வணக்கம்"⟩,
             ⟨"vandhanam", "வந்தனம்", "vandhanam", "வந்தனம்"⟩],
        some ⟨104, 20⟩⟩ := by
  have h := update_notifies 2 5 "van" ⟨100, 20⟩ demoEngine
  refine Eq.trans ((h.2.2.2.2 "van" (by decide) (by decide) (by decide)
    (by decide)).1) ?_
  decide

lemma takeWhile_append_all (p : Char → Bool) :
    ∀ (u v : List Char), (∀ c ∈ u, p c = true) →
      (u ++ v).takeWhile p = u ++ v.takeWhile p := by
  intro u
  induction u with
  | nil => intro v _; rfl
  | cons a u ih =>
    intro v h
    have ha : p a = true := h a (List.mem_cons_self a u)
    simp only [List.cons_append, List.takeWhile_cons, ha, if_true]
    rw [ih v (fun c hc => h c (List.mem_cons_of_mem a hc))]

lemma takeWhile_all (p : Char → Bool) (l : List Char)
    (h : ∀ c ∈ l, p c = true) : l.takeWhile p = l := by
  have h2 := takeWhile_append_all p l [] h
  simpa using h2

lemma takeWhile_reverse_spec (p : Char → Bool) (l : List Char) :
    (∃ q, l = q ++ (l.reverse.takeWhile p).reverse) ∧
    (∀ c ∈ (l.reverse.takeWhile p).reverse, p c = true) ∧
    (∀ t : List Char, (∃ q, l = q ++ t) → (∀ c ∈ t, p c = true) →
      t.length ≤ (l.reverse.takeWhile p).reverse.length) := by
  refine ⟨⟨(l.reverse.dropWhile p).reverse, ?_⟩, ?_, ?_⟩
  · calc l = l.reverse.reverse := (List.reverse_reverse l).symm
      _ = (l.reverse.takeWhile p ++ l.reverse.dropWhile p).reverse := by
          rw [List.takeWhile_append_dropWhile]
      _ = (l.reverse.dropWhile p).reverse ++ (l.reverse.takeWhile p).reverse := by
          rw [List.reverse_append]
  · intro c hc
    exact List.mem_takeWhile_imp (List.mem_reverse.mp hc)
  · intro t hqt ht
    rcases hqt with ⟨q, hq⟩
    have hrev : l.reverse = t.reverse ++ q.reverse := by
      rw [hq, List.reverse_append]
    have hall : ∀ c ∈ t.reverse, p c = true :=
      fun c hc => ht c (List.mem_reverse.mp hc)
    have htw : l.reverse.takeWhile p = t.reverse ++ q.reverse.takeWhile p := by
      rw [hrev]; exact takeWhile_append_all p t.reverse q.reverse hall
    have hlen : ((t.reverse ++ q.reverse.takeWhile p)).reverse.length =
        t.length + (q.reverse.takeWhile p).length := by
      simp [Nat.add_comm]
    rw [htw, hlen]
    exact Nat.le_add_right _ _

lemma extractWord_spec (s : String) :
    (extractWord s = none ↔
      s.data = [] ∨ ∃ q c, s.data = q ++ [c] ∧ jsWhitespace c = true) ∧
    (∀ w, extractWord s = some w →
      (∃ q, s.data = q ++ w.data) ∧ w.data ≠ [] ∧
      (∀ c ∈ w.data, jsWhitespace c = false) ∧
      (∀ t : List Char, (∃ q, s.data = q ++ t) →
        (∀ c ∈ t, jsWhitespace c = false) → t.length ≤ w.data.length)) := by
  constructor
  · constructor
    · intro hnone
      rcases hr : s.data.reverse with _ | ⟨c, cs⟩
      · left
        have h2 := congrArg List.reverse hr
        simpa using h2
      · by_cases hc : jsWhitespace c = true
        · right
          refine ⟨cs.reverse, c, ?_, hc⟩
          have h2 := congrArg List.reverse hr
          simpa using h2
        · exfalso
          have hc' : jsWhitespace c = false := by
            cases h : jsWhitespace c
            · rfl
            · exact absurd h hc
          simp [extractWord, hr, hc'] at hnone
    · intro h
      rcases h with h | ⟨q, c, hqc, hc⟩
      · simp [extractWord, h]
      · have hr : s.data.reverse = c :: q.reverse := by
          rw [hqc]; simp
        simp [extractWord, hr, hc]
  · intro w hw
    simp only [extractWord] at hw
    split at hw
    · simp at hw
    · rename_i hne
      have hw' :
          String.mk ((s.data.reverse.takeWhile (fun c => !jsWhitespace c)).reverse)
            = w := Option.some.inj hw
      obtain ⟨hsuf, hmem, hmax⟩ :=
        takeWhile_reverse_spec (fun c => !jsWhitespace c) s.data
      subst hw'
      refine ⟨hsuf, ?_, ?_, ?_⟩
      · intro hnil
        have hnil' :
            (s.data.reverse.takeWhile (fun c => !jsWhitespace c)).reverse = [] :=
          hnil
        have h0 : s.data.reverse.takeWhile (fun c => !jsWhitespace c) = [] := by
          have h2 := congrArg List.reverse hnil'
          simpa using h2
        exact hne (by simp [h0])
      · intro c hc
        have h2 := hmem c hc
        simpa using h2
      · intro t hqt ht
        exact hmax t hqt (fun c hc => by simp [ht c hc])

/-- Claim C4: for o at most the length of T, word extraction on (T, o)
returns none exactly when the substring T[0:o] is empty or ends in a
whitespace character; otherwise it returns a nonempty whitespace-free
suffix of T[0:o] of maximal length. -/
theorem extractWord_correct (T : String) (o : Nat) (_ho : o ≤ T.length) :
    (extractWord (takeChars T o) = none ↔
      (takeChars T o).data = [] ∨
        ∃ q c, (takeChars T o).data = q ++ [c] ∧ jsWhitespace c = true) ∧
    (∀ w, extractWord (takeChars T o) = some w →
      (∃ q, (takeChars T o).data = q ++ w.data) ∧ w.data ≠ [] ∧
      (∀ c ∈ w.data, jsWhitespace c = false) ∧
      (∀ t : List Char, (∃ q, (takeChars T o).data = q ++ t) →
        (∀ c ∈ t, jsWhitespace c = false) → t.length ≤ w.data.length)) :=
  extractWord_spec (takeChars T o)

theorem extractWord_correct_witness :
    extractWord (takeChars "ab cd" 5) = some "cd" ∧
    "cd".data ≠ [] ∧ (∀ c ∈ "cd".data, jsWhitespace c = false) := by
  have h := extractWord_correct "ab cd" 5 (by decide)
  have hw := h.2 "cd" (by decide)
  exact ⟨by decide, hw.2.1, hw.2.2.1⟩

/-- Claim C5 is false on the code: U+FFFC, the placeholder under which
textBetween renders non-text inline leaves, is not in JavaScript's
whitespace class, so the regex treats it as a word character and it
lands inside the extracted word. -/
theorem extractWord_placeholder_cex :
    extractWord "x￼y" = some "x￼y" ∧
    '￼' ∈ "x￼y".data := by
  decide

/-- Claim C5 (amended): word extraction treats the U+FFFC placeholder as
an ordinary non-whitespace character, not as a boundary: a run of
whitespace-free text surrounding an embedded placeholder is extracted
whole, placeholder included, so a word can span a non-text inline
element. -/
theorem extractWord_placeholder_spans (a b : List Char)
    (ha : ∀ c ∈ a, jsWhitespace c = false)
    (hb : ∀ c ∈ b, jsWhitespace c = false) :
    extractWord (String.mk (a ++ '￼' :: b)) =
      some (String.mk (a ++ '￼' :: b)) := by
  have hall : ∀ c ∈ (a ++ '￼' :: b).reverse,
      (fun c => !jsWhitespace c) c = true := by
    intro c hc
    rcases List.mem_append.mp (List.mem_reverse.mp hc) with h | h
    · simp [ha c h]
    · rcases List.mem_cons.mp h with rfl | h
      · decide
      · simp [hb c h]
  simp only [extractWord]
  rw [takeWhile_all _ _ hall]
  simp

theorem extractWord_placeholder_spans_witness :
    extractWord "x￼y" = some (String.mk (['x'] ++ '￼' :: ['y'])) := by
  have h := extractWord_placeholder_spans ['x'] ['y'] (by decide) (by decide)
  exact h
